import Mathlib

/-!
Verification of the sequence-alignment repository: shallow embedding of
`string_generator.py`, `src/basic.py` and `src/efficient.py`, followed by
theorems about the embedded functions.

Strings are modelled as `List Char`, Python integers as `Int` where negative
values can occur (insertion indices) and as `Nat` where they cannot (costs).
-/

/-! ## Cost model (`basic.py`: `ALPHA`, `GAP`, `DELTA`, `get_alpha`) -/

def GAP : Nat := 30

def DELTA : Nat := GAP

/-- One row of the `ALPHA` dictionary: the list of `(key, value)` pairs for a
given first character; characters outside the four keys give the empty row,
mirroring `ALPHA.get(char1, {})`. -/
def alphaRow (a : Char) : List (Char × Nat) :=
  if a = 'A' then [('A', 0), ('C', 110), ('G', 48), ('T', 94)]
  else if a = 'C' then [('A', 110), ('C', 0), ('G', 118), ('T', 48)]
  else if a = 'G' then [('A', 48), ('G', 0), ('C', 118), ('T', 110)]
  else if a = 'T' then [('A', 94), ('T', 0), ('C', 48), ('G', 110)]
  else []

/-- `get_alpha(char1, char2)`: dictionary lookup with default `0`,
mirroring `ALPHA.get(char1, {}).get(char2, 0)`. -/
def get_alpha (a b : Char) : Nat := ((alphaRow a).lookup b).getD 0

/-- The four-symbol DNA alphabet. -/
def isBase (c : Char) : Bool := c = 'A' || c = 'C' || c = 'G' || c = 'T'

/-- A string over the four-symbol alphabet. -/
def DNA (s : List Char) : Prop := ∀ c ∈ s, isBase c = true

instance (s : List Char) : Decidable (DNA s) := by
  unfold DNA; infer_instance

/-! ## String generator (`string_generator.py` / `basic.py`: `generate_string`) -/

/-- The effective bound of the Python slices `s[:k]` and `s[k:]`: a negative
`k` counts from the end (and clamps at `0`), a too-large `k` clamps at
`len(s)`. -/
def pySliceStop (s : List Char) (k : Int) : Nat :=
  if k < 0 then ((s.length : Int) + k).toNat else min k.toNat s.length

/-- One step of the generator loop: `s = s[:idx + 1] + s + s[idx + 1:]`. -/
def stepInsert (s : List Char) (idx : Int) : List Char :=
  s.take (pySliceStop s (idx + 1)) ++ s ++ s.drop (pySliceStop s (idx + 1))

/-- `generate_string(base, indices)`: fold the insertion step over the index
list. -/
def generate_string (base : List Char) (indices : List Int) : List Char :=
  indices.foldl stepInsert base

/-- The spec's contract for the generator (§4.2 / §7): an index outside
`[0, current_length - 1]` at its step is a configuration error and generation
fails fast (modelled as `none`); a valid index performs the splice. This
definition follows the spec's words, for comparison with `generate_string`
(which is translated from the source). -/
def generate_string_spec (base : List Char) : List Int → Option (List Char)
  | [] => some base
  | idx :: rest =>
      if 0 ≤ idx ∧ idx < (base.length : Int) then
        generate_string_spec (stepInsert base idx) rest
      else
        none

/-- Every index lies in `[0, current_length - 1]` at its own step. -/
def validIndices : List Char → List Int → Prop
  | _, [] => True
  | s, idx :: rest => (0 ≤ idx ∧ idx < (s.length : Int)) ∧ validIndices (stepInsert s idx) rest

instance : ∀ (s : List Char) (l : List Int), Decidable (validIndices s l)
  | _, [] => .isTrue trivial
  | s, idx :: rest =>
      have : Decidable (validIndices (stepInsert s idx) rest) :=
        instDecidableValidIndices _ _
      by unfold validIndices; infer_instance

theorem pySliceStop_le (s : List Char) (k : Int) : pySliceStop s k ≤ s.length := by
  unfold pySliceStop
  split
  · omega
  · exact min_le_right _ _

theorem stepInsert_length (s : List Char) (idx : Int) :
    (stepInsert s idx).length = 2 * s.length := by
  have h := pySliceStop_le s (idx + 1)
  simp [stepInsert]
  omega

theorem generate_string_length (base : List Char) (indices : List Int) :
    (generate_string base indices).length = base.length * 2 ^ indices.length := by
  induction indices generalizing base with
  | nil => simp [generate_string]
  | cons idx rest ih =>
      have h := ih (stepInsert base idx)
      simp only [generate_string, List.foldl_cons] at h ⊢
      rw [h, stepInsert_length]
      simp [Nat.pow_succ]
      ring

theorem stepInsert_valid (s : List Char) (idx : Int) (h0 : 0 ≤ idx)
    (h1 : idx < (s.length : Int)) :
    stepInsert s idx = s.take (idx.toNat + 1) ++ s ++ s.drop (idx.toNat + 1) := by
  have heq : pySliceStop s (idx + 1) = idx.toNat + 1 := by
    unfold pySliceStop
    rw [if_neg (by omega)]
    have : (idx + 1).toNat = idx.toNat + 1 := by omega
    rw [this]
    omega
  rw [stepInsert, heq]

theorem stepInsert_overflow (s : List Char) (idx : Int)
    (h : (s.length : Int) ≤ idx) : stepInsert s idx = s ++ s := by
  have heq : pySliceStop s (idx + 1) = s.length := by
    unfold pySliceStop
    rw [if_neg (by omega)]
    omega
  rw [stepInsert, heq]
  simp

/-- Claim C5: for a non-empty base and an index list each of whose indices is
valid at its step, `generate_string` performs the splice
`s[:idx+1] + s + s[idx+1:]` per index, the result has length
`len(base) * 2 ^ len(indices)`, and an empty index list returns the base
unchanged. -/
theorem claim_C5 (base : List Char) (indices : List Int) (hbase : base ≠ [])
    (hvalid : validIndices base indices) :
    (generate_string base indices).length = base.length * 2 ^ indices.length ∧
    (∀ (s : List Char) (idx : Int), 0 ≤ idx → idx < (s.length : Int) →
      stepInsert s idx = s.take (idx.toNat + 1) ++ s ++ s.drop (idx.toNat + 1)) ∧
    generate_string base [] = base :=
  ⟨generate_string_length base indices,
   fun s idx h0 h1 => stepInsert_valid s idx h0 h1,
   rfl⟩

theorem claim_C5_witness :
    (['A', 'C'] : List Char) ≠ [] ∧ validIndices ['A', 'C'] [(0 : Int)] ∧
    ((generate_string ['A', 'C'] [(0 : Int)]).length = 2 * 2 ^ 1 ∧
     (∀ (s : List Char) (idx : Int), 0 ≤ idx → idx < (s.length : Int) →
       stepInsert s idx = s.take (idx.toNat + 1) ++ s ++ s.drop (idx.toNat + 1)) ∧
     generate_string ['A', 'C'] [] = ['A', 'C']) :=
  ⟨by decide, by decide, claim_C5 ['A', 'C'] [(0 : Int)] (by decide) (by decide)⟩

/-- Claim C6, counterexample: with `base = "A"` and index `5` (out of range for the
length-1 string), the source's `generate_string` does not fail: it returns
`"AA"`, while the spec's fail-fast contract demands an error. -/
theorem claim_C6_counterexample :
    generate_string_spec ['A'] [(5 : Int)] = none ∧
    generate_string ['A'] [(5 : Int)] = ['A', 'A'] := by
  constructor
  · rfl
  · rfl

/-- Claim C6, amended: an out-of-range index does not abort generation; Python's
slice clamping makes the step total, and an index at or beyond the current
length inserts the whole string at the end (`s ++ s`), still doubling the
length. -/
theorem claim_C6 (s : List Char) (idx : Int) (h : (s.length : Int) ≤ idx) :
    stepInsert s idx = s ++ s ∧ (stepInsert s idx).length = 2 * s.length :=
  ⟨stepInsert_overflow s idx h, stepInsert_length s idx⟩

theorem claim_C6_witness :
    ((['A'] : List Char).length : Int) ≤ (5 : Int) ∧
    (stepInsert ['A'] (5 : Int) = ['A'] ++ ['A'] ∧
     (stepInsert ['A'] (5 : Int)).length = 2 * 1) :=
  ⟨by decide, claim_C6 ['A'] (5 : Int) (by decide)⟩

/-- Claim C10: for every base string and every list of arbitrary integer
indices (negative indices and indices at or beyond the current length
included), `generate_string` terminates without error and still returns a
string of length `len(base) * 2 ^ len(indices)`, because out-of-range slice
bounds are clamped. -/
theorem claim_C10 (base : List Char) (indices : List Int) :
    (generate_string base indices).length = base.length * 2 ^ indices.length :=
  generate_string_length base indices

/-! ## Dynamic-programming aligners (`basic.py` / `efficient.py`) -/

/-- The inner loop of one DP row: given `last = curr[j-1]`, the remaining
characters `str2[j-1:]` and the tail `prev[j-1:]` of the previous row,
append `min(match_cost, delete_cost, insert_cost)` for each position. -/
def fillRow (gap : Nat) (x : Char) : Nat → List Char → List Nat → List Nat
  | _, [], _ => []
  | _, _ :: _, [] => []
  | last, y :: ys, pjm1 :: rest =>
      let v := min (min (pjm1 + get_alpha x y) (rest.headD 0 + gap)) (last + gap)
      v :: fillRow gap x v ys rest

/-- Row `i1 ≥ 1` of the DP table, from row `i1 - 1`: the first entry is
`i1 * gap`, the rest come from the three-way minimum. -/
def nextRow (gap : Nat) (x : Char) (i1 : Nat) (B : List Char) (prev : List Nat) : List Nat :=
  i1 * gap :: fillRow gap x (i1 * gap) B prev

/-- Row `0` of the DP table: `[0, gap, 2*gap, ...]`. -/
def row0 (gap n : Nat) : List Nat := (List.range (n + 1)).map (fun j => j * gap)

/-- The iteration of `space_efficient_alignment`: process the remaining
characters of `str1`, keeping only the previous row. -/
def seaGo (gap : Nat) (B : List Char) : List Char → Nat → List Nat → List Nat
  | [], _, prev => prev
  | x :: xs, i, prev => seaGo gap B xs (i + 1) (nextRow gap x (i + 1) B prev)

/-- `space_efficient_alignment(str1, str2)`: the last row of the DP table,
computed keeping two rows at a time. -/
def space_efficient_alignment (str1 str2 : List Char) : List Nat :=
  seaGo DELTA str2 str1 0 (row0 DELTA str2.length)

/-- Rows `1..m` of the DP table, in order. -/
def dpGo (gap : Nat) (B : List Char) : List Char → Nat → List Nat → List (List Nat)
  | [], _, _ => []
  | x :: xs, i, prev =>
      let r := nextRow gap x (i + 1) B prev
      r :: dpGo gap B xs (i + 1) r

/-- The full `(m+1) × (n+1)` DP table built by `sequence_alignment` and
`basic_alignment`. -/
def dpTable (gap : Nat) (A B : List Char) : List (List Nat) :=
  row0 gap B.length :: dpGo gap B A 0 (row0 gap B.length)

/-- `dp[i][j]` access. -/
def dpAt (t : List (List Nat)) (i j : Nat) : Nat := (t.getD i []).getD j 0

/-- `sequence_alignment(str1, str2, gap=GAP)`: build the DP table and return
`dp[m][n]`. -/
def sequence_alignment (str1 str2 : List Char) (gap : Nat := GAP) : Nat :=
  dpAt (dpTable gap str1 str2) str1.length str2.length

/-- The backtracking loop of `basic_alignment`, reading the table through
`d`: from `(i, j)` down to `(0, 0)`, preferring match, then a gap in
`str2`, then a gap in `str1`. -/
def backtrackGo (gap : Nat) (A B : List Char) (d : Nat → Nat → Nat) :
    Nat → Nat → List Char × List Char
  | 0, 0 => ([], [])
  | 0, j + 1 =>
      let p := backtrackGo gap A B d 0 j
      (p.1 ++ ['_'], p.2 ++ [B.getD j 'A'])
  | i + 1, 0 =>
      let p := backtrackGo gap A B d i 0
      (p.1 ++ [A.getD i 'A'], p.2 ++ ['_'])
  | i + 1, j + 1 =>
      if d (i + 1) (j + 1) = d i j + get_alpha (A.getD i 'A') (B.getD j 'A') then
        let p := backtrackGo gap A B d i j
        (p.1 ++ [A.getD i 'A'], p.2 ++ [B.getD j 'A'])
      else if d (i + 1) (j + 1) = d i (j + 1) + gap then
        let p := backtrackGo gap A B d i (j + 1)
        (p.1 ++ [A.getD i 'A'], p.2 ++ ['_'])
      else
        let p := backtrackGo gap A B d (i + 1) j
        (p.1 ++ ['_'], p.2 ++ [B.getD j 'A'])
  termination_by i j => (i, j)

/-- `basic_alignment(str1, str2)`: fill the DP table, backtrack, and return
the two aligned strings together with `dp[m][n]`. -/
def basic_alignment (str1 str2 : List Char) : List Char × List Char × Nat :=
  let d := dpAt (dpTable DELTA str1 str2)
  let p := backtrackGo DELTA str1 str2 d str1.length str2.length
  (p.1, p.2, d str1.length str2.length)

/-- The cost the verifier charges at one aligned position. -/
def posCost (a b : Char) : Nat := if a = '_' ∨ b = '_' then DELTA else get_alpha a b

/-- `calculate_alignment_cost(aligned_str1, aligned_str2)`: `none` models the
`ValueError` on a length mismatch; otherwise the per-position sum. -/
def calculate_alignment_cost (s1 s2 : List Char) : Option Nat :=
  if s1.length ≠ s2.length then none
  else some (((List.range s1.length).map (fun i => posCost (s1.getD i ' ') (s2.getD i ' '))).sum)

/-- One iteration of the split-point search: keep `(min_cost, split_idx)`,
updating only on a strict improvement (so the first minimum wins). -/
def splitStep (f : Nat → Nat) (acc : Option (Nat × Nat)) (k : Nat) : Option (Nat × Nat) :=
  match acc with
  | none => some (f k, k)
  | some (mc, si) => if f k < mc then some (f k, k) else some (mc, si)

/-- The split-point search of `hirschberg_alignment`: the first `k` in
`0..n` minimizing `f k` (`min_cost` starts at infinity, so `k = 0` always
loads first). -/
def splitIdx (f : Nat → Nat) (n : Nat) : Nat :=
  match (List.range (n + 1)).foldl (splitStep f) none with
  | none => 0
  | some (_, si) => si

/-- `hirschberg_alignment(str1, str2)`. -/
def hirschberg_alignment : List Char → List Char → List Char × List Char × Nat
  | A, B =>
    if _h0 : A.length = 0 then (List.replicate B.length '_', B, B.length * DELTA)
    else if _hn : B.length = 0 then (A, List.replicate A.length '_', A.length * DELTA)
    else if _h1 : A.length = 1 ∨ B.length = 1 then basic_alignment A B
    else
      let mid := A.length / 2
      let L := A.take mid
      let R := A.drop mid
      let scoreL := space_efficient_alignment L B
      let scoreR := (space_efficient_alignment R.reverse B.reverse).reverse
      let k := splitIdx (fun j => scoreL.getD j 0 + scoreR.getD j 0) B.length
      let lres := hirschberg_alignment L (B.take k)
      let rres := hirschberg_alignment R (B.drop k)
      (lres.1 ++ rres.1, lres.2.1 ++ rres.2.1, lres.2.2 + rres.2.2)
  termination_by A _ => A.length
  decreasing_by
  · simp only [List.length_take]
    omega
  · simp only [List.length_drop]
    omega


/-! ## Alignment semantics: move lists, projections, costs -/

/-- One column of an alignment: a substitution, a character of the first
string against a gap, or a gap against a character of the second string. -/
inductive Move where
  | sub : Char → Char → Move
  | gapB : Char → Move
  | gapA : Char → Move
deriving DecidableEq

/-- The character a move contributes to the first string. -/
def moveA : Move → Option Char
  | .sub a _ => some a
  | .gapB a => some a
  | .gapA _ => none

/-- The character a move contributes to the second string. -/
def moveB : Move → Option Char
  | .sub _ b => some b
  | .gapB _ => none
  | .gapA b => some b

/-- The first string an alignment aligns. -/
def projA (ms : List Move) : List Char := ms.filterMap moveA

/-- The second string an alignment aligns. -/
def projB (ms : List Move) : List Char := ms.filterMap moveB

/-- The cost of one move. -/
def mcost (g : Nat) : Move → Nat
  | .sub a b => get_alpha a b
  | .gapB _ => g
  | .gapA _ => g

/-- The total cost of an alignment. -/
def acost (g : Nat) (ms : List Move) : Nat := (ms.map (mcost g)).sum

/-- The optimal alignment cost, by the textbook recursion on the front
characters.  The DP lemmas below show the tables of the source compute it. -/
def optF (g : Nat) : List Char → List Char → Nat
  | [], ys => ys.length * g
  | x :: xs, [] => (x :: xs).length * g
  | x :: xs, y :: ys =>
      min (min (optF g xs ys + get_alpha x y) (optF g xs (y :: ys) + g))
          (optF g (x :: xs) ys + g)
  termination_by xs ys => (xs.length, ys.length)

theorem optF_nil_left (g : Nat) (ys : List Char) : optF g [] ys = ys.length * g := by
  simp [optF]

theorem optF_nil_right (g : Nat) (xs : List Char) : optF g xs [] = xs.length * g := by
  cases xs <;> simp [optF]

theorem optF_cons_cons (g : Nat) (x y : Char) (xs ys : List Char) :
    optF g (x :: xs) (y :: ys) =
      min (min (optF g xs ys + get_alpha x y) (optF g xs (y :: ys) + g))
          (optF g (x :: xs) ys + g) := by
  simp [optF]

theorem acost_cons (g : Nat) (m : Move) (ms : List Move) :
    acost g (m :: ms) = mcost g m + acost g ms := by
  simp [acost]

theorem projA_cons (m : Move) (ms : List Move) :
    projA (m :: ms) = (moveA m).toList ++ projA ms := by
  cases m <;> simp [projA, moveA, List.filterMap_cons]

theorem projB_cons (m : Move) (ms : List Move) :
    projB (m :: ms) = (moveB m).toList ++ projB ms := by
  cases m <;> simp [projB, moveB, List.filterMap_cons]

/-- Lower bound: every alignment of a pair of strings costs at least `optF`. -/
theorem optF_le_acost (g : Nat) : ∀ ms : List Move, optF g (projA ms) (projB ms) ≤ acost g ms := by
  intro ms
  induction ms with
  | nil => simp [projA, projB, acost, optF_nil_left]
  | cons m ms ih =>
      rw [acost_cons, projA_cons, projB_cons]
      cases m with
      | sub a b =>
          simp only [moveA, moveB, Option.toList_some, List.singleton_append]
          calc optF g (a :: projA ms) (b :: projB ms)
              ≤ optF g (projA ms) (projB ms) + get_alpha a b := by
                rw [optF_cons_cons]
                exact le_trans (min_le_left _ _) (min_le_left _ _)
            _ ≤ acost g ms + get_alpha a b := by omega
            _ = mcost g (.sub a b) + acost g ms := by simp [mcost]; omega
      | gapB a =>
          simp only [moveA, moveB, Option.toList_some, Option.toList_none,
            List.singleton_append, List.nil_append]
          cases hYs : projB ms with
          | nil =>
              rw [hYs] at ih
              rw [optF_nil_right] at ih ⊢
              simp [mcost, List.length_cons, Nat.succ_mul]
              omega
          | cons y ys =>
              rw [hYs] at ih
              calc optF g (a :: projA ms) (y :: ys)
                  ≤ optF g (projA ms) (y :: ys) + g := by
                    rw [optF_cons_cons]
                    exact le_trans (min_le_left _ _) (min_le_right _ _)
                _ ≤ acost g ms + g := by omega
                _ = mcost g (.gapB a) + acost g ms := by simp [mcost]; omega
      | gapA b =>
          simp only [moveA, moveB, Option.toList_some, Option.toList_none,
            List.singleton_append, List.nil_append]
          cases hXs : projA ms with
          | nil =>
              rw [hXs] at ih
              rw [optF_nil_left] at ih ⊢
              simp [mcost, List.length_cons, Nat.succ_mul]
              omega
          | cons x xs =>
              rw [hXs] at ih
              calc optF g (x :: xs) (b :: projB ms)
                  ≤ optF g (x :: xs) (projB ms) + g := by
                    rw [optF_cons_cons]
                    exact min_le_right _ _
                _ ≤ acost g ms + g := by omega
                _ = mcost g (.gapA b) + acost g ms := by simp [mcost]; omega

theorem projA_gapAs (ys : List Char) : projA (ys.map .gapA) = [] := by
  induction ys with
  | nil => rfl
  | cons y ys ih => simp_all [projA, List.filterMap_cons, moveA]

theorem projB_gapAs (ys : List Char) : projB (ys.map .gapA) = ys := by
  induction ys with
  | nil => rfl
  | cons y ys ih => simp_all [projB, List.filterMap_cons, moveB]

theorem acost_gapAs (g : Nat) (ys : List Char) : acost g (ys.map .gapA) = ys.length * g := by
  induction ys with
  | nil => simp [acost]
  | cons y ys ih => simp [acost, mcost, Nat.succ_mul] at ih ⊢; omega

theorem projA_gapBs (xs : List Char) : projA (xs.map .gapB) = xs := by
  induction xs with
  | nil => rfl
  | cons x xs ih => simp_all [projA, List.filterMap_cons, moveA]

theorem projB_gapBs (xs : List Char) : projB (xs.map .gapB) = [] := by
  induction xs with
  | nil => rfl
  | cons x xs ih => simp_all [projB, List.filterMap_cons, moveB]

theorem acost_gapBs (g : Nat) (xs : List Char) : acost g (xs.map .gapB) = xs.length * g := by
  induction xs with
  | nil => simp [acost]
  | cons x xs ih => simp [acost, mcost, Nat.succ_mul] at ih ⊢; omega

/-- Attainment: some alignment realizes the `optF` cost. -/
theorem optF_attained (g : Nat) :
    ∀ (N : Nat) (xs ys : List Char), xs.length + ys.length ≤ N →
      ∃ ms : List Move, projA ms = xs ∧ projB ms = ys ∧ acost g ms = optF g xs ys := by
  intro N
  induction N with
  | zero =>
      intro xs ys h
      have hxs : xs = [] := by cases xs <;> simp_all
      have hys : ys = [] := by cases ys <;> simp_all
      subst hxs; subst hys
      exact ⟨[], rfl, rfl, by simp [acost, optF_nil_left]⟩
  | succ N ih =>
      intro xs ys h
      cases xs with
      | nil =>
          exact ⟨ys.map .gapA, projA_gapAs ys, projB_gapAs ys, by
            rw [acost_gapAs, optF_nil_left]⟩
      | cons x xs =>
          cases ys with
          | nil =>
              exact ⟨(x :: xs).map .gapB, projA_gapBs _, projB_gapBs _, by
                rw [acost_gapBs, optF_nil_right]⟩
          | cons y ys =>
              simp only [List.length_cons] at h
              rcases min_choice (min (optF g xs ys + get_alpha x y)
                  (optF g xs (y :: ys) + g)) (optF g (x :: xs) ys + g) with hm | hm
              · rcases min_choice (optF g xs ys + get_alpha x y)
                    (optF g xs (y :: ys) + g) with hm' | hm'
                · obtain ⟨ms, hA, hB, hc⟩ := ih xs ys (by omega)
                  refine ⟨.sub x y :: ms, ?_, ?_, ?_⟩
                  · rw [projA_cons, hA]; rfl
                  · rw [projB_cons, hB]; rfl
                  · rw [acost_cons, optF_cons_cons, hm, hm', hc]; simp [mcost]; omega
                · obtain ⟨ms, hA, hB, hc⟩ := ih xs (y :: ys)
                    (by simp only [List.length_cons]; omega)
                  refine ⟨.gapB x :: ms, ?_, ?_, ?_⟩
                  · rw [projA_cons, hA]; rfl
                  · rw [projB_cons, hB]; rfl
                  · rw [acost_cons, optF_cons_cons, hm, hm', hc]; simp [mcost]; omega
              · obtain ⟨ms, hA, hB, hc⟩ := ih (x :: xs) ys
                  (by simp only [List.length_cons]; omega)
                refine ⟨.gapA y :: ms, ?_, ?_, ?_⟩
                · rw [projA_cons, hA]; rfl
                · rw [projB_cons, hB]; rfl
                · rw [acost_cons, optF_cons_cons, hm, hc]; simp [mcost]; omega

theorem projA_append (l1 l2 : List Move) : projA (l1 ++ l2) = projA l1 ++ projA l2 :=
  List.filterMap_append l1 l2 moveA

theorem projB_append (l1 l2 : List Move) : projB (l1 ++ l2) = projB l1 ++ projB l2 :=
  List.filterMap_append l1 l2 moveB

theorem acost_append (g : Nat) (l1 l2 : List Move) :
    acost g (l1 ++ l2) = acost g l1 + acost g l2 := by
  simp [acost]

theorem projA_reverse (ms : List Move) : projA ms.reverse = (projA ms).reverse :=
  List.filterMap_reverse moveA ms

theorem projB_reverse (ms : List Move) : projB ms.reverse = (projB ms).reverse :=
  List.filterMap_reverse moveB ms

theorem acost_reverse (g : Nat) (ms : List Move) : acost g ms.reverse = acost g ms := by
  simp [acost, ← List.sum_reverse (ms.map (mcost g))]

/-- Aligning the reversed strings costs the same. -/
theorem optF_reverse (g : Nat) (xs ys : List Char) :
    optF g xs.reverse ys.reverse = optF g xs ys := by
  have key : ∀ as bs : List Char, optF g as.reverse bs.reverse ≤ optF g as bs := by
    intro as bs
    obtain ⟨ms, hA, hB, hc⟩ :=
      optF_attained g (as.length + bs.length) as bs le_rfl
    have h := optF_le_acost g ms.reverse
    rw [projA_reverse, projB_reverse, hA, hB, acost_reverse, hc] at h
    exact h
  refine le_antisymm (key xs ys) ?_
  have h := key xs.reverse ys.reverse
  simpa using h

/-- The DP recurrence read off the back of the two strings. -/
theorem optF_snoc (g : Nat) (x y : Char) (xs ys : List Char) :
    optF g (xs ++ [x]) (ys ++ [y]) =
      min (min (optF g xs ys + get_alpha x y) (optF g xs (ys ++ [y]) + g))
          (optF g (xs ++ [x]) ys + g) := by
  have h1 : optF g (xs ++ [x]) (ys ++ [y]) =
      optF g (x :: xs.reverse) (y :: ys.reverse) := by
    rw [← optF_reverse g (xs ++ [x]) (ys ++ [y])]
    simp
  have e1 : optF g xs.reverse ys.reverse = optF g xs ys := optF_reverse g xs ys
  have e2 : optF g xs.reverse (y :: ys.reverse) = optF g xs (ys ++ [y]) := by
    rw [show (y :: ys.reverse) = (ys ++ [y]).reverse by simp, optF_reverse]
  have e3 : optF g (x :: xs.reverse) ys.reverse = optF g (xs ++ [x]) ys := by
    rw [show (x :: xs.reverse) = (xs ++ [x]).reverse by simp, optF_reverse]
  rw [h1, optF_cons_cons, e1, e2, e3]

/-- Concatenating alignments: the optimum of concatenations is at most the sum
of the optima of the pieces. -/
theorem optF_append_le (g : Nat) (X Y B1 B2 : List Char) :
    optF g (X ++ Y) (B1 ++ B2) ≤ optF g X B1 + optF g Y B2 := by
  obtain ⟨ms1, hA1, hB1, hc1⟩ := optF_attained g (X.length + B1.length) X B1 le_rfl
  obtain ⟨ms2, hA2, hB2, hc2⟩ := optF_attained g (Y.length + B2.length) Y B2 le_rfl
  have h := optF_le_acost g (ms1 ++ ms2)
  rw [projA_append, projB_append, acost_append, hA1, hB1, hA2, hB2, hc1, hc2] at h
  exact h

/-- An alignment of `xs1 ++ xs2` against anything cuts into an alignment of
`xs1` and an alignment of `xs2`. -/
theorem projA_split : ∀ (ms : List Move) (xs1 xs2 : List Char), projA ms = xs1 ++ xs2 →
    ∃ ms1 ms2, ms = ms1 ++ ms2 ∧ projA ms1 = xs1 ∧ projA ms2 = xs2 := by
  intro ms
  induction ms with
  | nil =>
      intro xs1 xs2 h
      simp only [projA, List.filterMap_nil] at h
      obtain ⟨h1, h2⟩ := (List.append_eq_nil).mp h.symm
      exact ⟨[], [], rfl, by simp [projA, h1], by simp [projA, h2]⟩
  | cons m rest ih =>
      intro xs1 xs2 h
      cases m with
      | gapA b =>
          rw [projA_cons] at h
          simp only [moveA, Option.toList_none, List.nil_append] at h
          obtain ⟨ms1, ms2, rfl, h1, h2⟩ := ih xs1 xs2 h
          exact ⟨.gapA b :: ms1, ms2, rfl, by rw [projA_cons, h1]; rfl, h2⟩
      | sub a b =>
          rw [projA_cons] at h
          simp only [moveA, Option.toList_some, List.singleton_append] at h
          cases xs1 with
          | nil =>
              refine ⟨[], .sub a b :: rest, rfl, rfl, ?_⟩
              rw [projA_cons]
              simp only [moveA, Option.toList_some, List.singleton_append]
              simpa using h
          | cons x xs1 =>
              simp only [List.cons_append, List.cons.injEq] at h
              obtain ⟨rfl, h'⟩ := h
              obtain ⟨ms1, ms2, rfl, h1, h2⟩ := ih xs1 xs2 h'
              exact ⟨.sub a b :: ms1, ms2, rfl, by rw [projA_cons, h1]; rfl, h2⟩
      | gapB a =>
          rw [projA_cons] at h
          simp only [moveA, Option.toList_some, List.singleton_append] at h
          cases xs1 with
          | nil =>
              refine ⟨[], .gapB a :: rest, rfl, rfl, ?_⟩
              rw [projA_cons]
              simp only [moveA, Option.toList_some, List.singleton_append]
              simpa using h
          | cons x xs1 =>
              simp only [List.cons_append, List.cons.injEq] at h
              obtain ⟨rfl, h'⟩ := h
              obtain ⟨ms1, ms2, rfl, h1, h2⟩ := ih xs1 xs2 h'
              exact ⟨.gapB a :: ms1, ms2, rfl, by rw [projA_cons, h1]; rfl, h2⟩

/-- Some split point of the second string realizes the optimum of the
concatenated first string. -/
theorem optF_split_exists (g : Nat) (X Y B : List Char) :
    ∃ k ≤ B.length, optF g X (B.take k) + optF g Y (B.drop k) ≤ optF g (X ++ Y) B := by
  obtain ⟨ms, hA, hB, hc⟩ :=
    optF_attained g ((X ++ Y).length + B.length) (X ++ Y) B le_rfl
  obtain ⟨ms1, ms2, rfl, h1, h2⟩ := projA_split ms X Y hA
  rw [projB_append] at hB
  refine ⟨(projB ms1).length, ?_, ?_⟩
  · rw [← hB]
    simp
  · have htake : B.take (projB ms1).length = projB ms1 := by
      rw [← hB]; exact List.take_left _ _
    have hdrop : B.drop (projB ms1).length = projB ms2 := by
      rw [← hB]; exact List.drop_left _ _
    rw [htake, hdrop, ← hc, acost_append]
    have ha := optF_le_acost g ms1
    have hb := optF_le_acost g ms2
    rw [h1] at ha
    rw [h2] at hb
    omega

/-! ## The DP rows compute `optF` on prefixes -/

theorem take_succ_getD (l : List Char) (i : Nat) (hi : i < l.length) :
    l.take (i + 1) = l.take i ++ [l.getD i 'A'] := by
  rw [List.getD_eq_getElem l 'A' hi]
  exact (List.take_concat_get' l i hi).symm

theorem optF_take_zero_left (g : Nat) (A B : List Char) (j : Nat) (hj : j ≤ B.length) :
    optF g (A.take 0) (B.take j) = j * g := by
  show optF g [] (B.take j) = j * g
  rw [optF_nil_left]
  simp [List.length_take]
  omega

theorem optF_take_zero_right (g : Nat) (A B : List Char) (i : Nat) (hi : i ≤ A.length) :
    optF g (A.take i) (B.take 0) = i * g := by
  simp [optF_nil_right, List.length_take]
  omega

theorem optF_take_succ_succ (g : Nat) (A B : List Char) (i j : Nat)
    (hi : i < A.length) (hj : j < B.length) :
    optF g (A.take (i + 1)) (B.take (j + 1)) =
      min (min (optF g (A.take i) (B.take j) + get_alpha (A.getD i 'A') (B.getD j 'A'))
               (optF g (A.take i) (B.take (j + 1)) + g))
          (optF g (A.take (i + 1)) (B.take j) + g) := by
  rw [take_succ_getD A i hi, take_succ_getD B j hj, optF_snoc]

theorem fillRow_spec (g : Nat) (A B : List Char) (i : Nat) (hi : i < A.length) :
    ∀ (k t : Nat), t ≤ B.length → B.length - t = k →
      fillRow g (A.getD i 'A') (optF g (A.take (i + 1)) (B.take t)) (B.drop t)
          ((List.range' t (B.length + 1 - t)).map (fun j => optF g (A.take i) (B.take j)))
        = (List.range' (t + 1) (B.length - t)).map
            (fun j => optF g (A.take (i + 1)) (B.take j)) := by
  intro k
  induction k with
  | zero =>
      intro t ht hk
      have ht' : t = B.length := by omega
      subst ht'
      rw [List.drop_length]
      simp [fillRow]
  | succ k ih =>
      intro t ht hk
      have ht' : t < B.length := by omega
      rw [List.drop_eq_getElem_cons ht']
      have hr1 : B.length + 1 - t = (k + 1) + 1 := by omega
      rw [hr1]
      rw [show List.range' t (k + 1 + 1) = t :: List.range' (t + 1) (k + 1) from rfl]
      rw [List.map_cons]
      rw [show List.range' (t + 1) (k + 1) = (t + 1) :: List.range' (t + 2) k from rfl]
      rw [List.map_cons]
      simp only [fillRow, List.headD_cons]
      have hv : min (min (optF g (A.take i) (B.take t) + get_alpha (A.getD i 'A') B[t])
            (optF g (A.take i) (B.take (t + 1)) + g))
            (optF g (A.take (i + 1)) (B.take t) + g)
          = optF g (A.take (i + 1)) (B.take (t + 1)) := by
        rw [optF_take_succ_succ g A B i t hi ht']
        rw [List.getD_eq_getElem B 'A' ht']
      rw [hv]
      have ihx := ih (t + 1) (by omega) (by omega)
      have hr2 : B.length + 1 - (t + 1) = k + 1 := by omega
      rw [hr2] at ihx
      rw [show List.range' (t + 1) (k + 1) = (t + 1) :: List.range' (t + 2) k from rfl,
        List.map_cons] at ihx
      rw [ihx]
      have hr3 : B.length - t = k + 1 := hk
      rw [hr3]
      rw [show List.range' (t + 1) (k + 1) = (t + 1) :: List.range' (t + 2) k from rfl,
        List.map_cons]
      have hr4 : B.length - (t + 1) = k := by omega
      rw [hr4]

theorem nextRow_spec (g : Nat) (A B : List Char) (i : Nat) (hi : i < A.length) :
    nextRow g (A.getD i 'A') (i + 1) B
        ((List.range (B.length + 1)).map (fun j => optF g (A.take i) (B.take j)))
      = (List.range (B.length + 1)).map (fun j => optF g (A.take (i + 1)) (B.take j)) := by
  unfold nextRow
  have h0 : (i + 1) * g = optF g (A.take (i + 1)) (B.take 0) := by
    rw [optF_take_zero_right g A B (i + 1) (by omega)]
  have hfill := fillRow_spec g A B i hi B.length 0 (by omega) (by omega)
  rw [List.drop_zero, show B.length + 1 - 0 = B.length + 1 from rfl,
    show (0 : Nat) + 1 = 1 from rfl, show B.length - 0 = B.length from rfl] at hfill
  rw [List.range_eq_range']
  rw [show List.range' 0 (B.length + 1) = 0 :: List.range' 1 B.length from rfl] at hfill ⊢
  rw [List.map_cons] at hfill
  rw [List.map_cons, List.map_cons, h0, hfill]

theorem seaGo_spec (g : Nat) (A B : List Char) :
    ∀ (k i : Nat), i ≤ A.length → A.length - i = k →
      seaGo g B (A.drop i) i
          ((List.range (B.length + 1)).map (fun j => optF g (A.take i) (B.take j)))
        = (List.range (B.length + 1)).map (fun j => optF g (A.take A.length) (B.take j)) := by
  intro k
  induction k with
  | zero =>
      intro i hi hk
      have h : i = A.length := by omega
      subst h
      rw [List.drop_length]
      rfl
  | succ k ih =>
      intro i hi hk
      have hi' : i < A.length := by omega
      rw [List.drop_eq_getElem_cons hi']
      rw [show seaGo g B (A[i] :: A.drop (i + 1)) i
          ((List.range (B.length + 1)).map (fun j => optF g (A.take i) (B.take j)))
        = seaGo g B (A.drop (i + 1)) (i + 1)
          (nextRow g A[i] (i + 1) B
            ((List.range (B.length + 1)).map (fun j => optF g (A.take i) (B.take j))))
        from rfl]
      rw [show (A[i] : Char) = A.getD i 'A' from (List.getD_eq_getElem A 'A' hi').symm]
      rw [nextRow_spec g A B i hi']
      exact ih (i + 1) (by omega) (by omega)

theorem row0_map (g : Nat) (A B : List Char) :
    row0 g B.length
      = (List.range (B.length + 1)).map (fun j => optF g (A.take 0) (B.take j)) := by
  unfold row0
  apply List.map_congr_left
  intro j hj
  rw [List.mem_range] at hj
  rw [optF_take_zero_left g A B j (by omega)]

theorem space_efficient_alignment_eq (A B : List Char) :
    space_efficient_alignment A B
      = (List.range (B.length + 1)).map (fun j => optF DELTA A (B.take j)) := by
  unfold space_efficient_alignment
  rw [row0_map DELTA A B]
  have h := seaGo_spec DELTA A B A.length 0 (by omega) (by omega)
  rw [List.drop_zero] at h
  rw [h, List.take_length]

theorem dpGo_spec (g : Nat) (A B : List Char) :
    ∀ (k i : Nat), i ≤ A.length → A.length - i = k →
      dpGo g B (A.drop i) i
          ((List.range (B.length + 1)).map (fun j => optF g (A.take i) (B.take j)))
        = (List.range' (i + 1) (A.length - i)).map
            (fun r => (List.range (B.length + 1)).map (fun j => optF g (A.take r) (B.take j))) := by
  intro k
  induction k with
  | zero =>
      intro i hi hk
      have h : i = A.length := by omega
      subst h
      rw [List.drop_length]
      simp [dpGo]
  | succ k ih =>
      intro i hi hk
      have hi' : i < A.length := by omega
      rw [List.drop_eq_getElem_cons hi']
      rw [show dpGo g B (A[i] :: A.drop (i + 1)) i
          ((List.range (B.length + 1)).map (fun j => optF g (A.take i) (B.take j)))
        = nextRow g A[i] (i + 1) B
            ((List.range (B.length + 1)).map (fun j => optF g (A.take i) (B.take j)))
          :: dpGo g B (A.drop (i + 1)) (i + 1)
            (nextRow g A[i] (i + 1) B
              ((List.range (B.length + 1)).map (fun j => optF g (A.take i) (B.take j))))
        from rfl]
      rw [show (A[i] : Char) = A.getD i 'A' from (List.getD_eq_getElem A 'A' hi').symm]
      rw [nextRow_spec g A B i hi']
      rw [ih (i + 1) (by omega) (by omega)]
      rw [hk]
      rw [show List.range' (i + 1) (k + 1)
          = (i + 1) :: List.range' (i + 2) (k) from rfl]
      rw [List.map_cons]
      have hk' : A.length - (i + 1) = k := by omega
      rw [hk']

theorem dpTable_map (g : Nat) (A B : List Char) :
    dpTable g A B
      = (List.range (A.length + 1)).map
          (fun r => (List.range (B.length + 1)).map (fun j => optF g (A.take r) (B.take j))) := by
  unfold dpTable
  rw [row0_map g A B]
  have h := dpGo_spec g A B A.length 0 (by omega) (by omega)
  rw [List.drop_zero, show (0 : Nat) + 1 = 1 from rfl,
    show A.length - 0 = A.length from rfl] at h
  rw [h]
  rw [List.range_eq_range' (A.length + 1)]
  rw [show List.range' 0 (A.length + 1) = 0 :: List.range' 1 A.length from rfl]
  rw [List.map_cons]

theorem getD_map_range {β : Type} (f : Nat → β) (k i : Nat) (d : β) (h : i < k) :
    ((List.range k).map f).getD i d = f i := by
  have hl : i < ((List.range k).map f).length := by simpa using h
  rw [List.getD_eq_getElem _ d hl]
  simp

theorem dpAt_eq (g : Nat) (A B : List Char) (i j : Nat)
    (hi : i ≤ A.length) (hj : j ≤ B.length) :
    dpAt (dpTable g A B) i j = optF g (A.take i) (B.take j) := by
  unfold dpAt
  rw [dpTable_map g A B]
  rw [getD_map_range _ _ _ _ (by omega)]
  rw [getD_map_range _ _ _ _ (by omega)]

theorem sequence_alignment_eq (A B : List Char) (g : Nat) :
    sequence_alignment A B g = optF g A B := by
  unfold sequence_alignment
  rw [dpAt_eq g A B A.length B.length (by omega) (by omega)]
  rw [List.take_length, List.take_length]

/-! ## The verifier's per-position sum -/

/-- The verifier's sum written over the zipped strings. -/
def pairCost (s1 s2 : List Char) : Nat := ((s1.zip s2).map (fun p => posCost p.1 p.2)).sum

theorem calc_sum_eq_pairCost :
    ∀ (s1 s2 : List Char), s1.length = s2.length →
      ((List.range s1.length).map (fun i => posCost (s1.getD i ' ') (s2.getD i ' '))).sum
        = pairCost s1 s2 := by
  intro s1
  induction s1 with
  | nil =>
      intro s2 h
      simp [pairCost]
  | cons a s1 ih =>
      intro s2 h
      cases s2 with
      | nil => simp at h
      | cons b s2 =>
          simp only [List.length_cons] at h ⊢
          rw [List.range_succ_eq_map, List.map_cons, List.map_map, List.sum_cons]
          simp only [Function.comp_def, Nat.succ_eq_add_one, List.getD_cons_succ,
            List.getD_cons_zero]
          rw [ih s2 (by omega)]
          simp [pairCost]

/-- Claim C8: `calculate_alignment_cost` errors (returns `none`) exactly when
the two strings differ in length; on equal lengths it returns the sum over
positions of the gap penalty where either string holds the gap marker, and of
the substitution cost of the two characters otherwise. -/
theorem claim_C8 (s1 s2 : List Char) :
    (calculate_alignment_cost s1 s2 = none ↔ s1.length ≠ s2.length) ∧
    (s1.length = s2.length → calculate_alignment_cost s1 s2 = some (pairCost s1 s2)) := by
  unfold calculate_alignment_cost
  by_cases h : s1.length = s2.length
  · rw [if_neg (by omega)]
    constructor
    · simp [h]
    · intro _
      rw [calc_sum_eq_pairCost s1 s2 h]
  · rw [if_pos h]
    simp [h]

theorem claim_C8_witness :
    (['A'] : List Char).length = (['G'] : List Char).length ∧
    calculate_alignment_cost ['A'] ['G'] = some (pairCost ['A'] ['G']) :=
  ⟨rfl, (claim_C8 ['A'] ['G']).2 rfl⟩

/-! ## Symmetry of the cost matrix and of the aligner -/

theorem isBase_elim {c : Char} (h : isBase c = true) :
    c = 'A' ∨ c = 'C' ∨ c = 'G' ∨ c = 'T' := by
  have h' := h
  simp [isBase] at h'
  tauto

theorem get_alpha_symm_base {a b : Char} (ha : isBase a = true) (hb : isBase b = true) :
    get_alpha a b = get_alpha b a := by
  rcases isBase_elim ha with rfl | rfl | rfl | rfl <;>
    rcases isBase_elim hb with rfl | rfl | rfl | rfl <;> rfl

theorem DNA_cons_iff (c : Char) (s : List Char) :
    DNA (c :: s) ↔ isBase c = true ∧ DNA s := by
  simp [DNA]

theorem optF_symm (g : Nat) :
    ∀ (N : Nat) (xs ys : List Char), xs.length + ys.length ≤ N → DNA xs → DNA ys →
      optF g xs ys = optF g ys xs := by
  intro N
  induction N with
  | zero =>
      intro xs ys h _ _
      have hxs : xs = [] := by cases xs <;> simp_all
      have hys : ys = [] := by cases ys <;> simp_all
      subst hxs; subst hys; rfl
  | succ N ih =>
      intro xs ys h hX hY
      cases xs with
      | nil => rw [optF_nil_left, optF_nil_right]
      | cons x xs =>
          cases ys with
          | nil => rw [optF_nil_left, optF_nil_right]
          | cons y ys =>
              obtain ⟨hx, hxs⟩ := (DNA_cons_iff x xs).mp hX
              obtain ⟨hy, hys⟩ := (DNA_cons_iff y ys).mp hY
              simp only [List.length_cons] at h
              have e1 := ih xs ys (by omega) hxs hys
              have e2 := ih xs (y :: ys) (by simp only [List.length_cons]; omega) hxs hY
              have e3 := ih (x :: xs) ys (by simp only [List.length_cons]; omega) hX hys
              rw [optF_cons_cons, optF_cons_cons, e1, e2, e3,
                get_alpha_symm_base hx hy]
              omega

/-- Claim C9: on strings over the four-symbol alphabet the quadratic aligner
is symmetric in its two arguments, because the substitution-cost matrix is
symmetric and the gap cost is uniform. -/
theorem claim_C9 (A B : List Char) (hA : DNA A) (hB : DNA B) :
    sequence_alignment A B = sequence_alignment B A := by
  rw [sequence_alignment_eq, sequence_alignment_eq]
  exact optF_symm GAP (A.length + B.length) A B le_rfl hA hB

theorem claim_C9_witness :
    DNA ['A', 'C'] ∧ DNA ['A', 'G'] ∧
    sequence_alignment ['A', 'C'] ['A', 'G'] = sequence_alignment ['A', 'G'] ['A', 'C'] :=
  ⟨by decide, by decide, claim_C9 ['A', 'C'] ['A', 'G'] (by decide) (by decide)⟩

/-- Claim C4: `space_efficient_alignment(A, B)` returns a vector of length
`len(B) + 1` whose entry `j` is the optimal cost of aligning all of `A` with
the first `j` characters of `B`, i.e. equals `sequence_alignment(A, B[0:j])`. -/
theorem claim_C4 (A B : List Char) (hA : DNA A) (hB : DNA B) :
    (space_efficient_alignment A B).length = B.length + 1 ∧
    ∀ j ≤ B.length,
      (space_efficient_alignment A B).getD j 0 = sequence_alignment A (B.take j) := by
  constructor
  · rw [space_efficient_alignment_eq]
    simp
  · intro j hj
    rw [space_efficient_alignment_eq, getD_map_range _ _ _ _ (by omega),
      sequence_alignment_eq]
    rfl

theorem claim_C4_witness :
    DNA ['A', 'C'] ∧ DNA ['A', 'G'] ∧
    ((space_efficient_alignment ['A', 'C'] ['A', 'G']).length = 2 + 1 ∧
     ∀ j ≤ (['A', 'G'] : List Char).length,
       (space_efficient_alignment ['A', 'C'] ['A', 'G']).getD j 0
         = sequence_alignment ['A', 'C'] (['A', 'G'].take j)) :=
  ⟨by decide, by decide, claim_C4 ['A', 'C'] ['A', 'G'] (by decide) (by decide)⟩

/-- Claim C2, counterexample: the quadratic aligner returns 60 on `("AC", "AG")`,
not the 118 the spec expects (two gaps cost 30 + 30 = 60 < 118). -/
theorem claim_C2_counterexample :
    sequence_alignment ['A', 'C'] ['A', 'G'] ≠ 118 := by decide

/-- Claim C2, amended: `sequence_alignment("AC", "AG")` returns 60, achieved by an
alignment with two gaps (`A_C` against `AG_`, cost 0 + 30 + 30); the no-gap
alignment `AC`/`AG` costs 0 + 118 = 118 and is not optimal. -/
theorem claim_C2 :
    sequence_alignment ['A', 'C'] ['A', 'G'] = 60 ∧
    pairCost ['A', '_', 'C'] ['A', 'G', '_'] = 60 ∧
    List.filter (fun c => c != '_') ['A', '_', 'C'] = ['A', 'C'] ∧
    List.filter (fun c => c != '_') ['A', 'G', '_'] = ['A', 'G'] ∧
    pairCost ['A', 'C'] ['A', 'G'] = 118 := by decide

/-! ## Correctness of the backtracking -/

theorem isBase_ne_gap {c : Char} (h : isBase c = true) : (c != '_') = true := by
  rcases isBase_elim h with rfl | rfl | rfl | rfl <;> rfl

theorem isBase_ne_gap' {c : Char} (h : isBase c = true) : c ≠ '_' := by
  rcases isBase_elim h with rfl | rfl | rfl | rfl <;> decide

theorem DNA_getD {A : List Char} (hA : DNA A) {i : Nat} (hi : i < A.length) :
    isBase (A.getD i 'A') = true := by
  rw [List.getD_eq_getElem A 'A' hi]
  exact hA _ (List.getElem_mem hi)

theorem pairCost_snoc (s1 s2 : List Char) (a b : Char) (h : s1.length = s2.length) :
    pairCost (s1 ++ [a]) (s2 ++ [b]) = pairCost s1 s2 + posCost a b := by
  unfold pairCost
  rw [List.zip_append h]
  simp

theorem posCost_gap_left (b : Char) : posCost '_' b = DELTA := by simp [posCost]

theorem posCost_gap_right (a : Char) : posCost a '_' = DELTA := by simp [posCost]

theorem posCost_base {a b : Char} (ha : a ≠ '_') (hb : b ≠ '_') :
    posCost a b = get_alpha a b := by
  simp [posCost, ha, hb]

theorem mem_append_chars {s : List Char} {c : Char}
    (hs : ∀ x ∈ s, isBase x = true ∨ x = '_') (hc : isBase c = true ∨ c = '_') :
    ∀ x ∈ s ++ [c], isBase x = true ∨ x = '_' := by
  intro x hx
  rcases List.mem_append.mp hx with h | h
  · exact hs x h
  · simp at h; subst h; exact hc

theorem filter_gap_single : List.filter (fun c => c != '_') ['_'] = [] := rfl

theorem filter_base_single {c : Char} (h : isBase c = true) :
    List.filter (fun c => c != '_') [c] = [c] := by
  simp [List.filter, isBase_ne_gap h]

theorem backtrackGo_spec (A B : List Char) (hA : DNA A) (hB : DNA B) :
    ∀ (N i j : Nat), i + j ≤ N → i ≤ A.length → j ≤ B.length →
    ∀ s1 s2, backtrackGo DELTA A B (dpAt (dpTable DELTA A B)) i j = (s1, s2) →
      s1.length = s2.length ∧
      (∀ ch ∈ s1, isBase ch = true ∨ ch = '_') ∧
      (∀ ch ∈ s2, isBase ch = true ∨ ch = '_') ∧
      s1.filter (fun c => c != '_') = A.take i ∧
      s2.filter (fun c => c != '_') = B.take j ∧
      pairCost s1 s2 = optF DELTA (A.take i) (B.take j) := by
  intro N
  induction N with
  | zero =>
      intro i j hij hi hj s1 s2 heq
      have hi0 : i = 0 := by omega
      have hj0 : j = 0 := by omega
      subst hi0; subst hj0
      rw [backtrackGo] at heq
      injection heq with e1 e2
      subst e1; subst e2
      refine ⟨rfl, by simp, by simp, rfl, rfl, ?_⟩
      rw [optF_take_zero_right DELTA A B 0 (by omega)]
      simp [pairCost]
  | succ N ih =>
      intro i j hij hi hj s1 s2 heq
      cases i with
      | zero =>
          cases j with
          | zero =>
              rw [backtrackGo] at heq
              injection heq with e1 e2
              subst e1; subst e2
              refine ⟨rfl, by simp, by simp, rfl, rfl, ?_⟩
              rw [optF_take_zero_right DELTA A B 0 (by omega)]
              simp [pairCost]
          | succ j =>
              rw [backtrackGo] at heq
              obtain ⟨t1, t2, hq⟩ : ∃ t1 t2,
                  backtrackGo DELTA A B (dpAt (dpTable DELTA A B)) 0 j = (t1, t2) :=
                ⟨_, _, rfl⟩
              rw [hq] at heq
              injection heq with e1 e2
              subst e1; subst e2
              obtain ⟨ihl, ihc1, ihc2, ihf1, ihf2, ihp⟩ :=
                ih 0 j (by omega) (by omega) (by omega) t1 t2 hq
              have hjB : j < B.length := by omega
              have hbj : isBase (B.getD j 'A') = true := DNA_getD hB hjB
              refine ⟨by simp [ihl], ?_, ?_, ?_, ?_, ?_⟩
              · exact mem_append_chars ihc1 (Or.inr rfl)
              · exact mem_append_chars ihc2 (Or.inl hbj)
              · rw [List.filter_append, ihf1, filter_gap_single]
                simp
              · rw [List.filter_append, ihf2, filter_base_single hbj,
                  ← take_succ_getD B j hjB]
              · rw [pairCost_snoc t1 t2 _ _ ihl, ihp, posCost_gap_left,
                  optF_take_zero_left DELTA A B j (by omega),
                  optF_take_zero_left DELTA A B (j + 1) (by omega)]
                ring
      | succ i =>
          cases j with
          | zero =>
              rw [backtrackGo] at heq
              obtain ⟨t1, t2, hq⟩ : ∃ t1 t2,
                  backtrackGo DELTA A B (dpAt (dpTable DELTA A B)) i 0 = (t1, t2) :=
                ⟨_, _, rfl⟩
              rw [hq] at heq
              injection heq with e1 e2
              subst e1; subst e2
              obtain ⟨ihl, ihc1, ihc2, ihf1, ihf2, ihp⟩ :=
                ih i 0 (by omega) (by omega) (by omega) t1 t2 hq
              have hiA : i < A.length := by omega
              have hai : isBase (A.getD i 'A') = true := DNA_getD hA hiA
              refine ⟨by simp [ihl], ?_, ?_, ?_, ?_, ?_⟩
              · exact mem_append_chars ihc1 (Or.inl hai)
              · exact mem_append_chars ihc2 (Or.inr rfl)
              · rw [List.filter_append, ihf1, filter_base_single hai,
                  ← take_succ_getD A i hiA]
              · rw [List.filter_append, ihf2, filter_gap_single]
                simp
              · rw [pairCost_snoc t1 t2 _ _ ihl, ihp, posCost_gap_right,
                  optF_take_zero_right DELTA A B i (by omega),
                  optF_take_zero_right DELTA A B (i + 1) (by omega)]
                ring
          | succ j =>
              have hiA : i < A.length := by omega
              have hjB : j < B.length := by omega
              have hai : isBase (A.getD i 'A') = true := DNA_getD hA hiA
              have hbj : isBase (B.getD j 'A') = true := DNA_getD hB hjB
              have E00 := dpAt_eq DELTA A B (i + 1) (j + 1) (by omega) (by omega)
              have E11 := dpAt_eq DELTA A B i j (by omega) (by omega)
              have E01 := dpAt_eq DELTA A B i (j + 1) (by omega) (by omega)
              rw [backtrackGo, E00, E11, E01] at heq
              by_cases h1 : optF DELTA (A.take (i + 1)) (B.take (j + 1))
                  = optF DELTA (A.take i) (B.take j)
                    + get_alpha (A.getD i 'A') (B.getD j 'A')
              · rw [if_pos h1] at heq
                obtain ⟨t1, t2, hq⟩ : ∃ t1 t2,
                    backtrackGo DELTA A B (dpAt (dpTable DELTA A B)) i j = (t1, t2) :=
                  ⟨_, _, rfl⟩
                rw [hq] at heq
                injection heq with e1 e2
                subst e1; subst e2
                obtain ⟨ihl, ihc1, ihc2, ihf1, ihf2, ihp⟩ :=
                  ih i j (by omega) (by omega) (by omega) t1 t2 hq
                refine ⟨by simp [ihl], ?_, ?_, ?_, ?_, ?_⟩
                · exact mem_append_chars ihc1 (Or.inl hai)
                · exact mem_append_chars ihc2 (Or.inl hbj)
                · rw [List.filter_append, ihf1, filter_base_single hai,
                    ← take_succ_getD A i hiA]
                · rw [List.filter_append, ihf2, filter_base_single hbj,
                    ← take_succ_getD B j hjB]
                · rw [pairCost_snoc t1 t2 _ _ ihl, ihp,
                    posCost_base (isBase_ne_gap' hai) (isBase_ne_gap' hbj), ← h1]
              · rw [if_neg h1] at heq
                by_cases h2 : optF DELTA (A.take (i + 1)) (B.take (j + 1))
                    = optF DELTA (A.take i) (B.take (j + 1)) + DELTA
                · rw [if_pos h2] at heq
                  obtain ⟨t1, t2, hq⟩ : ∃ t1 t2,
                      backtrackGo DELTA A B (dpAt (dpTable DELTA A B)) i (j + 1) = (t1, t2) :=
                    ⟨_, _, rfl⟩
                  rw [hq] at heq
                  injection heq with e1 e2
                  subst e1; subst e2
                  obtain ⟨ihl, ihc1, ihc2, ihf1, ihf2, ihp⟩ :=
                    ih i (j + 1) (by omega) (by omega) (by omega) t1 t2 hq
                  refine ⟨by simp [ihl], ?_, ?_, ?_, ?_, ?_⟩
                  · exact mem_append_chars ihc1 (Or.inl hai)
                  · exact mem_append_chars ihc2 (Or.inr rfl)
                  · rw [List.filter_append, ihf1, filter_base_single hai,
                      ← take_succ_getD A i hiA]
                  · rw [List.filter_append, ihf2, filter_gap_single]
                    simp
                  · rw [pairCost_snoc t1 t2 _ _ ihl, ihp, posCost_gap_right, ← h2]
                · rw [if_neg h2] at heq
                  obtain ⟨t1, t2, hq⟩ : ∃ t1 t2,
                      backtrackGo DELTA A B (dpAt (dpTable DELTA A B)) (i + 1) j = (t1, t2) :=
                    ⟨_, _, rfl⟩
                  rw [hq] at heq
                  injection heq with e1 e2
                  subst e1; subst e2
                  obtain ⟨ihl, ihc1, ihc2, ihf1, ihf2, ihp⟩ :=
                    ih (i + 1) j (by omega) (by omega) (by omega) t1 t2 hq
                  refine ⟨by simp [ihl], ?_, ?_, ?_, ?_, ?_⟩
                  · exact mem_append_chars ihc1 (Or.inr rfl)
                  · exact mem_append_chars ihc2 (Or.inl hbj)
                  · rw [List.filter_append, ihf1, filter_gap_single]
                    simp
                  · rw [List.filter_append, ihf2, filter_base_single hbj,
                      ← take_succ_getD B j hjB]
                  · rw [pairCost_snoc t1 t2 _ _ ihl, ihp, posCost_gap_left]
                    have hrec := optF_take_succ_succ DELTA A B i j hiA hjB
                    omega

theorem basic_alignment_spec (A B : List Char) (hA : DNA A) (hB : DNA B) :
    (basic_alignment A B).1.length = (basic_alignment A B).2.1.length ∧
    (∀ ch ∈ (basic_alignment A B).1, isBase ch = true ∨ ch = '_') ∧
    (∀ ch ∈ (basic_alignment A B).2.1, isBase ch = true ∨ ch = '_') ∧
    (basic_alignment A B).1.filter (fun c => c != '_') = A ∧
    (basic_alignment A B).2.1.filter (fun c => c != '_') = B ∧
    pairCost (basic_alignment A B).1 (basic_alignment A B).2.1 = (basic_alignment A B).2.2 ∧
    (basic_alignment A B).2.2 = optF DELTA A B := by
  obtain ⟨t1, t2, hq⟩ : ∃ t1 t2,
      backtrackGo DELTA A B (dpAt (dpTable DELTA A B)) A.length B.length = (t1, t2) :=
    ⟨_, _, rfl⟩
  obtain ⟨hl, hc1, hc2, hf1, hf2, hp⟩ :=
    backtrackGo_spec A B hA hB (A.length + B.length) A.length B.length
      le_rfl le_rfl le_rfl t1 t2 hq
  have hcost : dpAt (dpTable DELTA A B) A.length B.length = optF DELTA A B := by
    rw [dpAt_eq DELTA A B A.length B.length le_rfl le_rfl, List.take_length,
      List.take_length]
  have hba : basic_alignment A B = (t1, t2, dpAt (dpTable DELTA A B) A.length B.length) := by
    show ((backtrackGo DELTA A B (dpAt (dpTable DELTA A B)) A.length B.length).1,
          (backtrackGo DELTA A B (dpAt (dpTable DELTA A B)) A.length B.length).2,
          dpAt (dpTable DELTA A B) A.length B.length)
        = (t1, t2, dpAt (dpTable DELTA A B) A.length B.length)
    rw [hq]
  rw [hba]
  rw [List.take_length] at hf1
  rw [List.take_length] at hf2
  rw [List.take_length, List.take_length] at hp
  exact ⟨hl, hc1, hc2, hf1, hf2, by rw [hp, hcost], hcost⟩

theorem calculate_some (s1 s2 : List Char) (h : s1.length = s2.length) :
    calculate_alignment_cost s1 s2 = some (pairCost s1 s2) := by
  unfold calculate_alignment_cost
  rw [if_neg (by omega)]
  rw [calc_sum_eq_pairCost s1 s2 h]

/-- Claim C7: applying the verifier `calculate_alignment_cost` to the two
aligned strings returned by `basic_alignment` yields exactly the cost that
`basic_alignment` itself returns. -/
theorem claim_C7 (A B : List Char) (hA : DNA A) (hB : DNA B) :
    calculate_alignment_cost (basic_alignment A B).1 (basic_alignment A B).2.1
      = some ((basic_alignment A B).2.2) := by
  obtain ⟨hl, _, _, _, _, hp, _⟩ := basic_alignment_spec A B hA hB
  rw [calculate_some _ _ hl, hp]

/-! ## The split-point search and the divide step -/

theorem foldl_splitStep (f : Nat → Nat) :
    ∀ (l : List Nat) (mc si : Nat), mc = f si →
      ∃ mc' si', l.foldl (splitStep f) (some (mc, si)) = some (mc', si') ∧
        mc' = f si' ∧ mc' ≤ mc ∧ (∀ x ∈ l, mc' ≤ f x) ∧ (si' = si ∨ si' ∈ l) := by
  intro l
  induction l with
  | nil =>
      intro mc si h
      exact ⟨mc, si, rfl, h, le_rfl, by simp, Or.inl rfl⟩
  | cons a l ihl =>
      intro mc si h
      by_cases hc : f a < mc
      · have hstep : splitStep f (some (mc, si)) a = some (f a, a) := by
          simp [splitStep, hc]
        rw [List.foldl_cons, hstep]
        obtain ⟨mc', si', heq, h1, h2, h3, h4⟩ := ihl (f a) a rfl
        refine ⟨mc', si', heq, h1, by omega, ?_, ?_⟩
        · intro x hx
          rcases List.mem_cons.mp hx with rfl | hx
          · omega
          · exact h3 x hx
        · rcases h4 with rfl | h4
          · exact Or.inr (List.mem_cons_self _ _)
          · exact Or.inr (List.mem_cons_of_mem _ h4)
      · have hstep : splitStep f (some (mc, si)) a = some (mc, si) := by
          simp [splitStep, hc]
        rw [List.foldl_cons, hstep]
        obtain ⟨mc', si', heq, h1, h2, h3, h4⟩ := ihl mc si h
        refine ⟨mc', si', heq, h1, h2, ?_, ?_⟩
        · intro x hx
          rcases List.mem_cons.mp hx with rfl | hx
          · omega
          · exact h3 x hx
        · rcases h4 with rfl | h4
          · exact Or.inl rfl
          · exact Or.inr (List.mem_cons_of_mem _ h4)

theorem splitIdx_spec (f : Nat → Nat) (n : Nat) :
    splitIdx f n ≤ n ∧ ∀ j ≤ n, f (splitIdx f n) ≤ f j := by
  obtain ⟨mc', si', heq, h1, h2, h3, h4⟩ :=
    foldl_splitStep f ((List.range n).map Nat.succ) (f 0) 0 rfl
  have hsi : splitIdx f n = si' := by
    unfold splitIdx
    rw [List.range_succ_eq_map, List.foldl_cons,
      show splitStep f none 0 = some (f 0, 0) from rfl, heq]
  rw [hsi]
  constructor
  · rcases h4 with rfl | h4
    · omega
    · obtain ⟨x, hx, rfl⟩ := List.mem_map.mp h4
      have := List.mem_range.mp hx
      omega
  · intro j hj
    rcases Nat.eq_zero_or_pos j with rfl | hjpos
    · omega
    · have hjm : j ∈ (List.range n).map Nat.succ :=
        List.mem_map.mpr ⟨j - 1, List.mem_range.mpr (by omega), by omega⟩
      have := h3 j hjm
      omega

theorem getD_reverse (l : List Nat) (k : Nat) (h : k < l.length) :
    l.reverse.getD k 0 = l.getD (l.length - 1 - k) 0 := by
  rw [List.getD_eq_getElem _ _ (by simpa using h), List.getD_eq_getElem _ _ (by omega)]
  exact List.getElem_reverse _

theorem sea_getD (X B : List Char) (k : Nat) (hk : k ≤ B.length) :
    (space_efficient_alignment X B).getD k 0 = optF DELTA X (B.take k) := by
  rw [space_efficient_alignment_eq, getD_map_range _ _ _ _ (by omega)]

theorem seaRev_getD (X B : List Char) (k : Nat) (hk : k ≤ B.length) :
    (space_efficient_alignment X.reverse B.reverse).reverse.getD k 0
      = optF DELTA X (B.drop k) := by
  rw [space_efficient_alignment_eq]
  rw [getD_reverse _ k (by simp; omega)]
  simp only [List.length_map, List.length_range, List.length_reverse]
  rw [getD_map_range _ _ _ _ (by omega)]
  have hidx : B.length + 1 - 1 - k = B.length - k := by omega
  rw [hidx, List.take_reverse]
  have h2 : B.length - (B.length - k) = k := by omega
  rw [h2]
  exact optF_reverse DELTA X (B.drop k)

theorem DNA_take (A : List Char) (k : Nat) (hA : DNA A) : DNA (A.take k) :=
  fun c hc => hA c (List.mem_of_mem_take hc)

theorem DNA_drop (A : List Char) (k : Nat) (hA : DNA A) : DNA (A.drop k) :=
  fun c hc => hA c (List.mem_of_mem_drop hc)

theorem DNA_filter_gap {A : List Char} (hA : DNA A) :
    A.filter (fun c => c != '_') = A :=
  List.filter_eq_self.mpr (fun c hc => isBase_ne_gap (hA c hc))

theorem filter_gap_replicate (n : Nat) :
    (List.replicate n '_').filter (fun c => c != '_') = [] := by
  simp

theorem pairCost_cons (a b : Char) (s1 s2 : List Char) :
    pairCost (a :: s1) (b :: s2) = posCost a b + pairCost s1 s2 := by
  simp [pairCost]

theorem pairCost_gap_left_all (B : List Char) :
    pairCost (List.replicate B.length '_') B = B.length * DELTA := by
  induction B with
  | nil => simp [pairCost]
  | cons b bs ih =>
      simp only [List.length_cons, List.replicate_succ]
      rw [pairCost_cons, posCost_gap_left, ih]
      ring

theorem pairCost_gap_right_all (A : List Char) :
    pairCost A (List.replicate A.length '_') = A.length * DELTA := by
  induction A with
  | nil => simp [pairCost]
  | cons a as ih =>
      simp only [List.length_cons, List.replicate_succ]
      rw [pairCost_cons, posCost_gap_right, ih]
      ring

theorem pairCost_append (s1 s2 t1 t2 : List Char) (h : s1.length = s2.length) :
    pairCost (s1 ++ t1) (s2 ++ t2) = pairCost s1 s2 + pairCost t1 t2 := by
  unfold pairCost
  rw [List.zip_append h]
  simp

/-- The split chosen at the minimum of the two score vectors realizes the
optimum of the concatenated string. -/
theorem hirschberg_cost_split (X Y B : List Char) (K : Nat) (hK : K ≤ B.length)
    (hmin : ∀ j ≤ B.length, optF DELTA X (B.take K) + optF DELTA Y (B.drop K)
        ≤ optF DELTA X (B.take j) + optF DELTA Y (B.drop j)) :
    optF DELTA X (B.take K) + optF DELTA Y (B.drop K) = optF DELTA (X ++ Y) B := by
  apply le_antisymm
  · obtain ⟨k0, hk0, hle⟩ := optF_split_exists DELTA X Y B
    exact le_trans (hmin k0 hk0) hle
  · have h := optF_append_le DELTA X Y (B.take K) (B.drop K)
    rw [List.take_append_drop] at h
    exact h

/-- The full contract of an alignment result: equal lengths, characters over
the alphabet plus the gap marker, gap-deletion recovers the inputs, the
per-position sum equals the reported cost, and the cost is optimal. -/
def HAligned (A B : List Char) (res : List Char × List Char × Nat) : Prop :=
  res.1.length = res.2.1.length ∧
  (∀ ch ∈ res.1, isBase ch = true ∨ ch = '_') ∧
  (∀ ch ∈ res.2.1, isBase ch = true ∨ ch = '_') ∧
  res.1.filter (fun c => c != '_') = A ∧
  res.2.1.filter (fun c => c != '_') = B ∧
  pairCost res.1 res.2.1 = res.2.2 ∧
  res.2.2 = optF DELTA A B

theorem HAligned_append (A1 A2 B1 B2 : List Char) (r1 r2 : List Char × List Char × Nat)
    (h1 : HAligned A1 B1 r1) (h2 : HAligned A2 B2 r2)
    (hcost : optF DELTA A1 B1 + optF DELTA A2 B2 = optF DELTA (A1 ++ A2) (B1 ++ B2)) :
    HAligned (A1 ++ A2) (B1 ++ B2) (r1.1 ++ r2.1, r1.2.1 ++ r2.2.1, r1.2.2 + r2.2.2) := by
  obtain ⟨l1, c11, c12, f11, f12, p1, o1⟩ := h1
  obtain ⟨l2, c21, c22, f21, f22, p2, o2⟩ := h2
  refine ⟨by simp [l1, l2], ?_, ?_, ?_, ?_, ?_, ?_⟩
  · intro ch hch
    rcases List.mem_append.mp hch with h | h
    · exact c11 ch h
    · exact c21 ch h
  · intro ch hch
    rcases List.mem_append.mp hch with h | h
    · exact c12 ch h
    · exact c22 ch h
  · show (r1.1 ++ r2.1).filter (fun c => c != '_') = A1 ++ A2
    rw [List.filter_append, f11, f21]
  · show (r1.2.1 ++ r2.2.1).filter (fun c => c != '_') = B1 ++ B2
    rw [List.filter_append, f12, f22]
  · show pairCost (r1.1 ++ r2.1) (r1.2.1 ++ r2.2.1) = r1.2.2 + r2.2.2
    rw [pairCost_append _ _ _ _ l1, p1, p2]
  · show r1.2.2 + r2.2.2 = optF DELTA (A1 ++ A2) (B1 ++ B2)
    rw [o1, o2, hcost]

theorem hirschberg_base_left (A B : List Char) (hm : A.length = 0) (hB : DNA B) :
    HAligned A B (hirschberg_alignment A B) := by
  have hA0 : A = [] := List.length_eq_zero.mp hm
  subst hA0
  have hunfold : hirschberg_alignment [] B
      = (List.replicate B.length '_', B, B.length * DELTA) := by
    rw [hirschberg_alignment, dif_pos hm]
  rw [hunfold]
  refine ⟨by simp, ?_, ?_, ?_, ?_, ?_, ?_⟩
  · intro ch hch
    exact Or.inr (List.eq_of_mem_replicate hch)
  · intro ch hch
    exact Or.inl (hB ch hch)
  · exact filter_gap_replicate B.length
  · exact DNA_filter_gap hB
  · exact pairCost_gap_left_all B
  · rw [optF_nil_left]

theorem hirschberg_base_right (A B : List Char) (hm : ¬ A.length = 0)
    (hn : B.length = 0) (hA : DNA A) :
    HAligned A B (hirschberg_alignment A B) := by
  have hB0 : B = [] := List.length_eq_zero.mp hn
  subst hB0
  have hunfold : hirschberg_alignment A []
      = (A, List.replicate A.length '_', A.length * DELTA) := by
    rw [hirschberg_alignment, dif_neg hm, dif_pos hn]
  rw [hunfold]
  refine ⟨by simp, ?_, ?_, ?_, ?_, ?_, ?_⟩
  · intro ch hch
    exact Or.inl (hA ch hch)
  · intro ch hch
    exact Or.inr (List.eq_of_mem_replicate hch)
  · exact DNA_filter_gap hA
  · exact filter_gap_replicate A.length
  · exact pairCost_gap_right_all A
  · rw [optF_nil_right]

theorem hirschberg_spec :
    ∀ (N : Nat) (A B : List Char), A.length ≤ N → DNA A → DNA B →
      HAligned A B (hirschberg_alignment A B) := by
  intro N
  induction N with
  | zero =>
      intro A B hN hA hB
      exact hirschberg_base_left A B (by omega) hB
  | succ N ih =>
      intro A B hN hA hB
      by_cases hm : A.length = 0
      · exact hirschberg_base_left A B hm hB
      by_cases hn : B.length = 0
      · exact hirschberg_base_right A B hm hn hA
      by_cases h1 : A.length = 1 ∨ B.length = 1
      · have hunfold : hirschberg_alignment A B = basic_alignment A B := by
          rw [hirschberg_alignment, dif_neg hm, dif_neg hn, dif_pos h1]
        rw [hunfold]
        exact basic_alignment_spec A B hA hB
      · have h1' := h1
        push_neg at h1'
        have hm2 : 2 ≤ A.length := by omega
        have hn2 : 2 ≤ B.length := by omega
        have hunfold : hirschberg_alignment A B =
            ((hirschberg_alignment (A.take (A.length / 2))
                (B.take (splitIdx (fun j =>
                  (space_efficient_alignment (A.take (A.length / 2)) B).getD j 0
                  + (space_efficient_alignment (A.drop (A.length / 2)).reverse
                      B.reverse).reverse.getD j 0) B.length))).1
              ++ (hirschberg_alignment (A.drop (A.length / 2))
                (B.drop (splitIdx (fun j =>
                  (space_efficient_alignment (A.take (A.length / 2)) B).getD j 0
                  + (space_efficient_alignment (A.drop (A.length / 2)).reverse
                      B.reverse).reverse.getD j 0) B.length))).1,
             (hirschberg_alignment (A.take (A.length / 2))
                (B.take (splitIdx (fun j =>
                  (space_efficient_alignment (A.take (A.length / 2)) B).getD j 0
                  + (space_efficient_alignment (A.drop (A.length / 2)).reverse
                      B.reverse).reverse.getD j 0) B.length))).2.1
              ++ (hirschberg_alignment (A.drop (A.length / 2))
                (B.drop (splitIdx (fun j =>
                  (space_efficient_alignment (A.take (A.length / 2)) B).getD j 0
                  + (space_efficient_alignment (A.drop (A.length / 2)).reverse
                      B.reverse).reverse.getD j 0) B.length))).2.1,
             (hirschberg_alignment (A.take (A.length / 2))
                (B.take (splitIdx (fun j =>
                  (space_efficient_alignment (A.take (A.length / 2)) B).getD j 0
                  + (space_efficient_alignment (A.drop (A.length / 2)).reverse
                      B.reverse).reverse.getD j 0) B.length))).2.2
              + (hirschberg_alignment (A.drop (A.length / 2))
                (B.drop (splitIdx (fun j =>
                  (space_efficient_alignment (A.take (A.length / 2)) B).getD j 0
                  + (space_efficient_alignment (A.drop (A.length / 2)).reverse
                      B.reverse).reverse.getD j 0) B.length))).2.2) := by
          rw [hirschberg_alignment, dif_neg hm, dif_neg hn, dif_neg h1]
        obtain ⟨hKle, hKmin⟩ := splitIdx_spec (fun j =>
            (space_efficient_alignment (A.take (A.length / 2)) B).getD j 0
            + (space_efficient_alignment (A.drop (A.length / 2)).reverse
                B.reverse).reverse.getD j 0) B.length
        have hFval : ∀ j, j ≤ B.length →
            (space_efficient_alignment (A.take (A.length / 2)) B).getD j 0
              + (space_efficient_alignment (A.drop (A.length / 2)).reverse
                  B.reverse).reverse.getD j 0
            = optF DELTA (A.take (A.length / 2)) (B.take j)
              + optF DELTA (A.drop (A.length / 2)) (B.drop j) := by
          intro j hj
          rw [sea_getD _ _ _ hj, seaRev_getD _ _ _ hj]
        have hmin : ∀ j, j ≤ B.length →
            optF DELTA (A.take (A.length / 2)) (B.take (splitIdx (fun j =>
                (space_efficient_alignment (A.take (A.length / 2)) B).getD j 0
                + (space_efficient_alignment (A.drop (A.length / 2)).reverse
                    B.reverse).reverse.getD j 0) B.length))
              + optF DELTA (A.drop (A.length / 2)) (B.drop (splitIdx (fun j =>
                (space_efficient_alignment (A.take (A.length / 2)) B).getD j 0
                + (space_efficient_alignment (A.drop (A.length / 2)).reverse
                    B.reverse).reverse.getD j 0) B.length))
            ≤ optF DELTA (A.take (A.length / 2)) (B.take j)
              + optF DELTA (A.drop (A.length / 2)) (B.drop j) := by
          intro j hj
          have h := hKmin j hj
          rw [hFval _ hKle, hFval j hj] at h
          exact h
        have hco : optF DELTA (A.take (A.length / 2)) (B.take (splitIdx (fun j =>
              (space_efficient_alignment (A.take (A.length / 2)) B).getD j 0
              + (space_efficient_alignment (A.drop (A.length / 2)).reverse
                  B.reverse).reverse.getD j 0) B.length))
            + optF DELTA (A.drop (A.length / 2)) (B.drop (splitIdx (fun j =>
              (space_efficient_alignment (A.take (A.length / 2)) B).getD j 0
              + (space_efficient_alignment (A.drop (A.length / 2)).reverse
                  B.reverse).reverse.getD j 0) B.length))
            = optF DELTA (A.take (A.length / 2) ++ A.drop (A.length / 2))
                (B.take (splitIdx (fun j =>
                  (space_efficient_alignment (A.take (A.length / 2)) B).getD j 0
                  + (space_efficient_alignment (A.drop (A.length / 2)).reverse
                      B.reverse).reverse.getD j 0) B.length)
                ++ B.drop (splitIdx (fun j =>
                  (space_efficient_alignment (A.take (A.length / 2)) B).getD j 0
                  + (space_efficient_alignment (A.drop (A.length / 2)).reverse
                      B.reverse).reverse.getD j 0) B.length)) := by
          rw [List.take_append_drop, List.take_append_drop]
          have h := hirschberg_cost_split _ _ B _ hKle hmin
          rw [List.take_append_drop] at h
          exact h
        have hrec1 := ih (A.take (A.length / 2)) (B.take (splitIdx (fun j =>
              (space_efficient_alignment (A.take (A.length / 2)) B).getD j 0
              + (space_efficient_alignment (A.drop (A.length / 2)).reverse
                  B.reverse).reverse.getD j 0) B.length))
            (by simp only [List.length_take]; omega)
            (DNA_take A _ hA) (DNA_take B _ hB)
        have hrec2 := ih (A.drop (A.length / 2)) (B.drop (splitIdx (fun j =>
              (space_efficient_alignment (A.take (A.length / 2)) B).getD j 0
              + (space_efficient_alignment (A.drop (A.length / 2)).reverse
                  B.reverse).reverse.getD j 0) B.length))
            (by simp only [List.length_drop]; omega)
            (DNA_drop A _ hA) (DNA_drop B _ hB)
        have happ := HAligned_append _ _ _ _ _ _ hrec1 hrec2 hco
        rw [List.take_append_drop, List.take_append_drop] at happ
        rw [hunfold]
        exact happ

/-- Claim C1: for every pair of strings over the four-symbol alphabet, the
cost returned by the quadratic aligner `sequence_alignment` equals the cost
component of the tuple returned by `hirschberg_alignment`. -/
theorem claim_C1 (A B : List Char) (hA : DNA A) (hB : DNA B) :
    sequence_alignment A B = (hirschberg_alignment A B).2.2 := by
  have h := hirschberg_spec A.length A B le_rfl hA hB
  rw [sequence_alignment_eq]
  exact h.2.2.2.2.2.2.symm

theorem claim_C1_witness :
    DNA ['A', 'C'] ∧ DNA ['A', 'G'] ∧
    sequence_alignment ['A', 'C'] ['A', 'G']
      = (hirschberg_alignment ['A', 'C'] ['A', 'G']).2.2 :=
  ⟨by decide, by decide, claim_C1 ['A', 'C'] ['A', 'G'] (by decide) (by decide)⟩

/-- Claim C3: on strings over the four-symbol alphabet,
`hirschberg_alignment` returns a pair of equal-length strings over the
alphabet plus the gap marker, deleting every gap marker from them recovers the
two inputs, and the sum of per-position costs (gap penalty where either side
is a gap, substitution cost otherwise) equals the returned cost. -/
theorem claim_C3 (A B : List Char) (hA : DNA A) (hB : DNA B) :
    (hirschberg_alignment A B).1.length = (hirschberg_alignment A B).2.1.length ∧
    (∀ ch ∈ (hirschberg_alignment A B).1, isBase ch = true ∨ ch = '_') ∧
    (∀ ch ∈ (hirschberg_alignment A B).2.1, isBase ch = true ∨ ch = '_') ∧
    (hirschberg_alignment A B).1.filter (fun c => c != '_') = A ∧
    (hirschberg_alignment A B).2.1.filter (fun c => c != '_') = B ∧
    pairCost (hirschberg_alignment A B).1 (hirschberg_alignment A B).2.1
      = (hirschberg_alignment A B).2.2 := by
  have h := hirschberg_spec A.length A B le_rfl hA hB
  exact ⟨h.1, h.2.1, h.2.2.1, h.2.2.2.1, h.2.2.2.2.1, h.2.2.2.2.2.1⟩

theorem claim_C3_witness :
    DNA ['A', 'C'] ∧ DNA ['A', 'G'] ∧
    ((hirschberg_alignment ['A', 'C'] ['A', 'G']).1.length
        = (hirschberg_alignment ['A', 'C'] ['A', 'G']).2.1.length ∧
     (∀ ch ∈ (hirschberg_alignment ['A', 'C'] ['A', 'G']).1, isBase ch = true ∨ ch = '_') ∧
     (∀ ch ∈ (hirschberg_alignment ['A', 'C'] ['A', 'G']).2.1, isBase ch = true ∨ ch = '_') ∧
     (hirschberg_alignment ['A', 'C'] ['A', 'G']).1.filter (fun c => c != '_') = ['A', 'C'] ∧
     (hirschberg_alignment ['A', 'C'] ['A', 'G']).2.1.filter (fun c => c != '_') = ['A', 'G'] ∧
     pairCost (hirschberg_alignment ['A', 'C'] ['A', 'G']).1
        (hirschberg_alignment ['A', 'C'] ['A', 'G']).2.1
       = (hirschberg_alignment ['A', 'C'] ['A', 'G']).2.2) :=
  ⟨by decide, by decide, claim_C3 ['A', 'C'] ['A', 'G'] (by decide) (by decide)⟩

theorem claim_C7_witness :
    DNA ['T', 'T', 'T'] ∧ DNA ['A'] ∧
    calculate_alignment_cost (basic_alignment ['T', 'T', 'T'] ['A']).1
        (basic_alignment ['T', 'T', 'T'] ['A']).2.1
      = some ((basic_alignment ['T', 'T', 'T'] ['A']).2.2) :=
  ⟨by decide, by decide, claim_C7 ['T', 'T', 'T'] ['A'] (by decide) (by decide)⟩
